import Mathlib

/-!
Verification of the S38 fixed-width stock-quote decoding pipeline.

This file gives a shallow embedding of the core of
`data cleaning/extract_quotes_byte_level.py` (the byte-level base layout):
the byte slicer, the implied-decimal price decoder, the price sanity check,
the per-file date resolver and the per-line record validator of
`process_file`, together with theorems about them.

Modelling conventions:
- Python byte strings are `List Nat` (one entry per byte); Python text
  strings are `List Char`.
- The CP950 decoder with replacement of undecodable bytes
  (`bytes.decode(ENCODING, errors='replace')`) is an external standard
  library collaborator.  Since the replacement mode makes it a total
  function of the bytes, it is modelled as an arbitrary function
  `decode : List Nat → List Char`; all theorems hold for every such
  function.  `asciiDecode` below is one concrete instance used to
  evaluate witnesses on concrete inputs.
- Python floats are modelled by `ℚ`.  The decoder computes
  `whole + frac / 10000.0` with `whole < 10^5`, `frac < 10^4`, then
  `round(value, 4)`.  For this range the nine significant decimal digits
  are far below the 15-16 digits a double carries, so the float obtained
  is the double nearest to the rational `whole + frac/10000`, the
  `round(·, 4)` is the identity on it, and the order comparisons against
  `MIN_PRICE`/`MAX_PRICE` (both on the same 1/10000 grid) agree with the
  exact rational comparisons.  The embedding therefore uses the exact
  rational value.
-/

/-- Value of an ASCII digit character (Python `int` on a single digit). -/
def digitVal (c : Char) : Nat := c.toNat - 48

/-- The code points removed by CPython `str.strip()` with no argument,
enumerated exhaustively from the interpreter (CPython 3.11): the ASCII
whitespace 0x09-0x0D and 0x20, the information separators 0x1C-0x1F,
NEL (0x85), NBSP (0xA0), OGHAM SPACE MARK, the EN QUAD .. HAIR SPACE
block, LINE and PARAGRAPH SEPARATOR, NARROW NBSP, MEDIUM MATHEMATICAL
SPACE, and IDEOGRAPHIC SPACE (0x3000, which CP950 can decode to). -/
def pyWhitespaceCodes : List Nat :=
  [9, 10, 11, 12, 13, 28, 29, 30, 31, 32, 133, 160, 5760,
   8192, 8193, 8194, 8195, 8196, 8197, 8198, 8199, 8200, 8201, 8202,
   8232, 8233, 8239, 8287, 12288]

/-- The character predicate behind Python `str.strip()`. -/
def isPyWhitespace (c : Char) : Bool := pyWhitespaceCodes.contains c.toNat

/-- Python `str.strip()`: remove leading and trailing whitespace. -/
def pyStrip (s : List Char) : List Char :=
  ((s.dropWhile isPyWhitespace).reverse.dropWhile isPyWhitespace).reverse

/-- Python `str.zfill(n)` on an unsigned digit string: left-pad with `'0'`
to length `n` (a string already at least that long is unchanged). -/
def zfill (n : Nat) (s : List Char) : List Char :=
  List.replicate (n - s.length) '0' ++ s

/-- Python `s[-n:]` on a string of length at least `n`: the last `n`
characters. -/
def lastN (n : Nat) (s : List Char) : List Char := s.drop (s.length - n)

/-- The code point ranges (inclusive) matched by `\d` in CPython `re`
on text patterns: all Unicode decimal digits, enumerated exhaustively
from the interpreter (CPython 3.11).  This class is wider than the
ASCII-only `[0-9]` used by `parse_9digit_price`; in particular it
includes the fullwidth digits 0xFF10-0xFF19, which CP950 can decode
to. -/
def pyDigitRanges : List (Nat × Nat) :=
  [(48, 57), (1632, 1641), (1776, 1785), (1984, 1993),
   (2406, 2415), (2534, 2543), (2662, 2671), (2790, 2799),
   (2918, 2927), (3046, 3055), (3174, 3183), (3302, 3311),
   (3430, 3439), (3558, 3567), (3664, 3673), (3792, 3801),
   (3872, 3881), (4160, 4169), (4240, 4249), (6112, 6121),
   (6160, 6169), (6470, 6479), (6608, 6617), (6784, 6793),
   (6800, 6809), (6992, 7001), (7088, 7097), (7232, 7241),
   (7248, 7257), (42528, 42537), (43216, 43225), (43264, 43273),
   (43472, 43481), (43504, 43513), (43600, 43609), (44016, 44025),
   (65296, 65305), (66720, 66729), (68912, 68921), (69734, 69743),
   (69872, 69881), (69942, 69951), (70096, 70105), (70384, 70393),
   (70736, 70745), (70864, 70873), (71248, 71257), (71360, 71369),
   (71472, 71481), (71904, 71913), (72016, 72025), (72784, 72793),
   (73040, 73049), (73120, 73129), (92768, 92777), (92864, 92873),
   (93008, 93017), (120782, 120831), (123200, 123209), (123632, 123641),
   (125264, 125273), (130032, 130041)]

/-- The character class of `\d` in Python regular expressions over
text. -/
def pyIsDigit (c : Char) : Bool :=
  pyDigitRanges.any (fun r => decide (r.1 ≤ c.toNat) && decide (c.toNat ≤ r.2))

/-- Accumulator form of reading a decimal digit string, mirroring how the
value of `int(digits)` is determined positionally. -/
def natOfDigitsAcc : Nat → List Char → Nat
  | a, [] => a
  | a, c :: t => natOfDigitsAcc (10 * a + digitVal c) t

/-- The numeric value of a decimal digit string. -/
def natOfDigits (s : List Char) : Nat := natOfDigitsAcc 0 s

/-- Python `int(s)` restricted to the shapes reaching it in this program:
it succeeds exactly on non-empty all-digit strings (the `try`/`except`
around the conversions models failure as `none`). -/
def pyInt (s : List Char) : Option Nat :=
  if s ≠ [] ∧ s.all Char.isDigit = true then some (natOfDigits s) else none

/-- Python `b[start:end]` on bytes with non-negative offsets: elements
from index `start` up to `end`, truncated at the end of the sequence. -/
def pySliceBytes (b : List Nat) (start stop : Nat) : List Nat :=
  (b.take stop).drop start

/-- `MIN_PRICE = 0.01` (extract_quotes_byte_level.py line 16). -/
def MIN_PRICE : ℚ := 1 / 100

/-- `MAX_PRICE = 1_000_000.0` (extract_quotes_byte_level.py line 17). -/
def MAX_PRICE : ℚ := 1000000

/-- `BYTE_POS["stock_id"]` (byte offsets in the S38 layout). -/
def BYTE_POS_stock_id : Nat × Nat := (0, 6)

/-- `BYTE_POS["stock_name"]`. -/
def BYTE_POS_stock_name : Nat × Nat := (6, 22)

/-- `BYTE_POS["open_price_raw"]`. -/
def BYTE_POS_open_price_raw : Nat × Nat := (22, 31)

/-- `BYTE_POS["high_price_raw"]`. -/
def BYTE_POS_high_price_raw : Nat × Nat := (31, 40)

/-- `BYTE_POS["low_price_raw"]`. -/
def BYTE_POS_low_price_raw : Nat × Nat := (40, 49)

/-- `BYTE_POS["close_price_raw"]`. -/
def BYTE_POS_close_price_raw : Nat × Nat := (49, 58)

/-- `BYTE_POS["change_flag"]`; its end offset 59 is the maximum configured
field end and hence the minimum acceptable line length. -/
def BYTE_POS_change_flag : Nat × Nat := (58, 59)

/-- `slice_bytes(line_bytes, start, end)` (lines 33-38): slice the byte
range, decode it, and strip whitespace.  The decoder is passed as a
parameter (see the header); with a total decoder the `except` branch of
the source is unreachable, so it does not appear here. -/
def slice_bytes (decode : List Nat → List Char) (b : List Nat) (start stop : Nat) : List Char :=
  pyStrip (decode (pySliceBytes b start stop))

/-- The pad-or-truncate step of `parse_9digit_price` (lines 48-53): fewer
than 9 digits are left-padded with zeros, more than 9 keep only the
rightmost 9. -/
def pad9 (s : List Char) : List Char :=
  let ds := s.filter Char.isDigit
  if ds.length < 9 then zfill 9 ds else lastN 9 ds

/-- `parse_9digit_price(raw_str)` (lines 40-61): strip non-digits, pad or
truncate to 9 digits, split 5+4 and return `whole + frac/10000`.  The
empty string is falsy (`if not raw_str`), and `round(value, 4)` is the
identity on the exact rational (see the header). -/
def parse_9digit_price (s : List Char) : Option ℚ :=
  if s = [] then none
  else if s.filter Char.isDigit = [] then none
  else
    let d9 := pad9 s
    match pyInt (d9.take (d9.length - 4)), pyInt (d9.drop (d9.length - 4)) with
    | some whole, some frac => some ((whole : ℚ) + (frac : ℚ) / 10000)
    | _, _ => none

/-- `sane_price(v)` (lines 63-70): `None` is not sane; otherwise the value
must lie within `[MIN_PRICE, MAX_PRICE]`.  The `float(v)` conversion
cannot fail on a decoded price, so the `except` branch is not modelled. -/
def sane_price : Option ℚ → Bool
  | none => false
  | some v => decide (MIN_PRICE ≤ v) && decide (v ≤ MAX_PRICE)

/-- Leftmost match of `re.search(r'(\d{8})', line)`: the first position
at which 8 consecutive decimal digits (the `\d` class `pyIsDigit`)
start. -/
def searchDigitRun8 : List Char → Option (List Char)
  | [] => none
  | c :: t =>
    if 8 ≤ (c :: t).length ∧ ((c :: t).take 8).all pyIsDigit = true then
      some ((c :: t).take 8)
    else searchDigitRun8 t

/-- The header scan of `derive_date_for_file` (lines 74-82): return the
first 8-digit run found in the given (up to 3) decoded header lines. -/
def firstMatch : List (List Char) → Option (List Char)
  | [] => none
  | l :: ls =>
    match searchDigitRun8 l with
    | some d => some d
    | none => firstMatch ls

/-- Leftmost match of `re.search(r'\((\d{3,8})\)', name)`: at a `'('` the
greedy `\d{3,8}` with backtracking succeeds exactly when the maximal digit
run after it (digits in the sense of the `\d` class `pyIsDigit`) has
length 3..8 and is followed by `')'`. -/
def findParenTag : List Char → Option (List Char)
  | [] => none
  | c :: t =>
    if c = '(' then
      let run := t.takeWhile pyIsDigit
      if 3 ≤ run.length ∧ run.length ≤ 8 ∧ (t.drop run.length).head? = some ')' then
        some run
      else findParenTag t
    else findParenTag t

/-- `re.match(r'^\d{4}$', y)` with `\d` the class `pyIsDigit`: in
Python `$` also matches just before one trailing newline, so a 4-digit
string followed by `'\n'` matches too. -/
def pyFullMatch4Digits (y : List Char) : Bool :=
  (decide (y.length = 4) && y.all pyIsDigit) ||
    (decide (y.length = 5) && (y.take 4).all pyIsDigit && decide (y.drop 4 = ['\n']))

/-- The `year_hint and re.match(r'^\d{4}$', year_hint)` guard: an absent
or empty hint is falsy. -/
def yearOk : Option (List Char) → Bool
  | none => false
  | some y => pyFullMatch4Digits y

/-- The final fallback of `derive_date_for_file` (lines 93-96): first day
of the hinted year, else the epoch sentinel. -/
def defaultDate (year_hint : Option (List Char)) : List Char :=
  if yearOk year_hint then year_hint.getD [] ++ "0101".toList
  else "19700101".toList

/-- `derive_date_for_file(path, year_hint)` (lines 72-96).  The file is
represented by its decoded lines (`headerLines`; a file whose opening
raises is indistinguishable from an empty one, both fall through to the
filename heuristics) and its name `fname`.  No step raises: the function
is total by construction. -/
def derive_date_for_file (headerLines : List (List Char)) (fname : List Char)
    (year_hint : Option (List Char)) : List Char :=
  match firstMatch (headerLines.take 3) with
  | some d => d
  | none =>
    match findParenTag fname with
    | some run =>
      let tag := zfill 4 run
      if tag.length = 4 ∧ yearOk year_hint = true then year_hint.getD [] ++ tag
      else if tag.length = 8 then tag
      else defaultDate year_hint
    | none => defaultDate year_hint

/-- Rejection reason codes of the byte-level `process_file` diagnostics
(the `slice_error` and `file_read_error` reasons of the source cannot
arise at this layer: slicing and replace-mode decoding are total, and
file reading is outside the embedding). -/
inductive Reason where
  | line_too_short : Reason
  | empty_stock_id : Reason
  | close_unparseable : Reason
  | close_out_of_bounds : ℚ → Reason
deriving DecidableEq

/-- An accepted record appended to `rows` (lines 212-220).  The source
formats `closing_price` as `f"{close_val:.4f}"`; the exact rational value
is kept here. -/
structure Row where
  date : List Char
  stock_id : List Char
  closing_price : ℚ
  change_flag : List Char
  stock_name : List Char
  source_file : List Char
  line_no : Nat
deriving DecidableEq

/-- A diagnostic record appended to `debug_rows`. -/
structure DebugRow where
  file : List Char
  line_no : Nat
  reason : Reason
  line_preview : List Char
  close_raw : List Char
deriving DecidableEq

/-- Outcome of one iteration of the per-line loop of `process_file`:
an empty line is skipped, otherwise exactly one record is produced. -/
inductive LineResult where
  | skipped : LineResult
  | accepted : Row → LineResult
  | rejected : DebugRow → LineResult
deriving DecidableEq

/-- Python `line_bytes.rstrip(b'\r\n')`: drop trailing CR (13) and LF (10)
bytes. -/
def rstripCRLF (raw : List Nat) : List Nat :=
  (raw.reverse.dropWhile (fun x => x = 13 || x = 10)).reverse

/-- The body of the per-line loop of `process_file`
(extract_quotes_byte_level.py lines 109-220, verbose printing omitted):
strip line endings, skip empty lines, reject short lines, slice the
fields, parse the closing price, then validate identifier, price
parseability and price bounds in that order. -/
def processLine (decode : List Nat → List Char) (fname date_tag : List Char)
    (lineno : Nat) (raw : List Nat) : LineResult :=
  let b := rstripCRLF raw
  if b.length = 0 then .skipped
  else if b.length < BYTE_POS_change_flag.2 then
    .rejected { file := fname, line_no := lineno, reason := .line_too_short,
                line_preview := decode (b.take 100), close_raw := [] }
  else
    let sid := slice_bytes decode b BYTE_POS_stock_id.1 BYTE_POS_stock_id.2
    let sname := slice_bytes decode b BYTE_POS_stock_name.1 BYTE_POS_stock_name.2
    let close_raw := slice_bytes decode b BYTE_POS_close_price_raw.1 BYTE_POS_close_price_raw.2
    let change_sym := decode (pySliceBytes b BYTE_POS_change_flag.1 BYTE_POS_change_flag.2)
    let close_val := parse_9digit_price close_raw
    if sid = [] then
      .rejected { file := fname, line_no := lineno, reason := .empty_stock_id,
                  line_preview := decode (b.take 100), close_raw := close_raw }
    else
      match close_val with
      | none =>
        .rejected { file := fname, line_no := lineno, reason := .close_unparseable,
                    line_preview := decode (b.take 100), close_raw := close_raw }
      | some v =>
        if sane_price (some v) then
          .accepted { date := date_tag, stock_id := sid, closing_price := v,
                      change_flag := pyStrip change_sym, stock_name := sname,
                      source_file := fname, line_no := lineno }
        else
          .rejected { file := fname, line_no := lineno, reason := .close_out_of_bounds v,
                      line_preview := decode (b.take 100), close_raw := close_raw }

/-- The per-line loop of `process_file` over the data lines, threading the
1-based line number and accumulating accepted and diagnostic records in
order. -/
def processLines (decode : List Nat → List Char) (fname date_tag : List Char) :
    Nat → List (List Nat) → List Row × List DebugRow
  | _, [] => ([], [])
  | lineno, raw :: rest =>
    let res := processLines decode fname date_tag (lineno + 1) rest
    match processLine decode fname date_tag lineno raw with
    | .skipped => res
    | .accepted r => (r :: res.1, res.2)
    | .rejected d => (res.1, d :: res.2)

/-- `process_file(path, date_tag, rows, debug_rows)` (lines 98-229) on a
file already read as its list of raw byte lines: the first line is
skipped unconditionally (header), the remaining lines are processed from
line number 2.  Returns the accepted rows and the diagnostic rows
appended for this file. -/
def process_file (decode : List Nat → List Char) (fname date_tag : List Char)
    (lines : List (List Nat)) : List Row × List DebugRow :=
  processLines decode fname date_tag 2 (lines.drop 1)

/-- Decimal digit character of a value below 10 (used only by the
re-encoding direction of the round-trip claim, which is stated by the
spec, not by the source). -/
def toDigitChar : Nat → Char
  | 0 => '0'
  | 1 => '1'
  | 2 => '2'
  | 3 => '3'
  | 4 => '4'
  | 5 => '5'
  | 6 => '6'
  | 7 => '7'
  | 8 => '8'
  | 9 => '9'
  | _ => '?'

/-- Decimal representation of a natural number (most significant digit
first; empty for 0, which `zfill` then pads). -/
def charsOfNat (n : Nat) : List Char :=
  ((Nat.digits 10 n).map toDigitChar).reverse

/-- The re-encoding described by the spec for the round-trip property:
take the decoded value `whole + frac/10000`, form `whole*10000 + frac`
(that is, the value scaled by 10000) and zero-pad its decimal
representation to 9 digits. -/
def reencode9 (v : ℚ) : List Char :=
  zfill 9 (charsOfNat (v * 10000).num.toNat)

/-- A concrete replace-mode decoder used to evaluate witnesses: CP950 is
ASCII-compatible, and the witness lines below are pure ASCII, where the
decoder is the codepoint map. -/
def asciiDecode (bs : List Nat) : List Char := bs.map Char.ofNat

/-- Witness file name. -/
def wfname : List Char := "STKT2QUOTESN(0420).txt".toList

/-- Witness date tag. -/
def wdate : List Char := "20200420".toList

/-- A well-formed 59-byte S38 line: id `001240`, name field, open, high,
low, close `000398000` (39.8000) and a change flag. -/
def wlineAccept : List Nat :=
  "001240PIEN            000012340000012345000012300000398000+".toList.map Char.toNat

/-- A 59-byte line whose close field is all spaces (no digits). -/
def wlineNoClose : List Nat :=
  "001240PIEN            000012340000012345000012300         +".toList.map Char.toNat

/-- A non-empty line shorter than the 59-byte minimum. -/
def wlineShort : List Nat := "0012".toList.map Char.toNat

/-! ### Digit-string lemmas -/

theorem natOfDigitsAcc_nil (a : Nat) : natOfDigitsAcc a [] = a := rfl

theorem natOfDigitsAcc_cons (a : Nat) (c : Char) (t : List Char) :
    natOfDigitsAcc a (c :: t) = natOfDigitsAcc (10 * a + digitVal c) t := rfl

theorem natOfDigitsAcc_append (s t : List Char) :
    ∀ a, natOfDigitsAcc a (s ++ t) = natOfDigitsAcc (natOfDigitsAcc a s) t := by
  induction s with
  | nil => intro a; rfl
  | cons c cs ih =>
    intro a
    rw [List.cons_append, natOfDigitsAcc_cons, natOfDigitsAcc_cons, ih]

theorem natOfDigitsAcc_eq (s : List Char) :
    ∀ a, natOfDigitsAcc a s = a * 10 ^ s.length + natOfDigits s := by
  induction s with
  | nil => intro a; rw [natOfDigitsAcc_nil, natOfDigits, natOfDigitsAcc_nil]; simp
  | cons c cs ih =>
    intro a
    rw [natOfDigitsAcc_cons, natOfDigits, natOfDigitsAcc_cons,
      ih (10 * a + digitVal c), ih (10 * 0 + digitVal c), List.length_cons]
    ring

theorem natOfDigits_cons (c : Char) (t : List Char) :
    natOfDigits (c :: t) = digitVal c * 10 ^ t.length + natOfDigits t := by
  rw [natOfDigits, natOfDigitsAcc_cons, natOfDigitsAcc_eq t (10 * 0 + digitVal c)]
  ring

theorem natOfDigits_append (s t : List Char) :
    natOfDigits (s ++ t) = natOfDigits s * 10 ^ t.length + natOfDigits t := by
  rw [natOfDigits, natOfDigitsAcc_append, natOfDigitsAcc_eq t (natOfDigitsAcc 0 s)]
  rfl

theorem isDigit_toNat_bounds {c : Char} (h : c.isDigit = true) :
    48 ≤ c.toNat ∧ c.toNat ≤ 57 := by
  simp [Char.isDigit, Char.le_def, decide_eq_true_eq] at h
  exact h

theorem digitVal_lt_ten {c : Char} (h : c.isDigit = true) : digitVal c < 10 := by
  have := isDigit_toNat_bounds h
  unfold digitVal
  omega

theorem char_eq_of_digitVal {c d : Char} (hc : c.isDigit = true) (hd : d.isDigit = true)
    (h : digitVal c = digitVal d) : c = d := by
  have h1 := isDigit_toNat_bounds hc
  have h2 := isDigit_toNat_bounds hd
  have : c.toNat = d.toNat := by unfold digitVal at h; omega
  exact Char.eq_of_val_eq (UInt32.eq_of_val_eq (Fin.eq_of_val_eq this))

theorem natOfDigits_lt (s : List Char) (h : s.all Char.isDigit = true) :
    natOfDigits s < 10 ^ s.length := by
  induction s with
  | nil => rw [natOfDigits, natOfDigitsAcc_nil]; norm_num
  | cons c cs ih =>
    simp only [List.all_cons, Bool.and_eq_true] at h
    have h9 : digitVal c ≤ 9 := by have := digitVal_lt_ten h.1; omega
    have hr := ih h.2
    rw [natOfDigits_cons, List.length_cons, pow_succ]
    have : digitVal c * 10 ^ cs.length ≤ 9 * 10 ^ cs.length :=
      Nat.mul_le_mul_right _ h9
    omega

theorem natOfDigits_inj : ∀ (s t : List Char), s.length = t.length →
    s.all Char.isDigit = true → t.all Char.isDigit = true →
    natOfDigits s = natOfDigits t → s = t
  | [], [], _, _, _, _ => rfl
  | [], _ :: _, hl, _, _, _ => by simp at hl
  | _ :: _, [], hl, _, _, _ => by simp at hl
  | c :: cs, d :: ds, hl, hs, ht, hv => by
    simp only [List.length_cons, Nat.succ_inj] at hl
    simp only [List.all_cons, Bool.and_eq_true] at hs ht
    rw [natOfDigits_cons, natOfDigits_cons, hl] at hv
    have hcs := natOfDigits_lt cs hs.2
    have hds := natOfDigits_lt ds ht.2
    rw [hl] at hcs
    have hhead : digitVal c = digitVal d := by
      have e1 : (digitVal c * 10 ^ ds.length + natOfDigits cs) / 10 ^ ds.length = digitVal c := by
        rw [Nat.mul_comm, Nat.mul_add_div (Nat.pos_pow_of_pos _ (by norm_num)),
          Nat.div_eq_of_lt hcs]
        omega
      have e2 : (digitVal d * 10 ^ ds.length + natOfDigits ds) / 10 ^ ds.length = digitVal d := by
        rw [Nat.mul_comm, Nat.mul_add_div (Nat.pos_pow_of_pos _ (by norm_num)),
          Nat.div_eq_of_lt hds]
        omega
      rw [← e1, ← e2, hv]
    have htail : natOfDigits cs = natOfDigits ds := by
      rw [hhead] at hv
      omega
    rw [char_eq_of_digitVal hs.1 ht.1 hhead,
      natOfDigits_inj cs ds hl hs.2 ht.2 htail]

theorem digitVal_toDigitChar {d : Nat} (h : d < 10) : digitVal (toDigitChar d) = d := by
  interval_cases d <;> rfl

theorem isDigit_toDigitChar {d : Nat} (h : d < 10) : (toDigitChar d).isDigit = true := by
  interval_cases d <;> rfl

theorem natOfDigits_rev_map (l : List Nat) (h : ∀ x ∈ l, x < 10) :
    natOfDigits ((l.map toDigitChar).reverse) = Nat.ofDigits 10 l := by
  induction l with
  | nil => rfl
  | cons d t ih =>
    simp only [List.map_cons, List.reverse_cons]
    rw [natOfDigits_append, Nat.ofDigits_cons,
      ih (fun x hx => h x (List.mem_cons_of_mem _ hx))]
    have hone : natOfDigits [toDigitChar d] = d := by
      rw [natOfDigits, natOfDigitsAcc_cons, natOfDigitsAcc_nil,
        digitVal_toDigitChar (h d (List.mem_cons_self _ _))]
      omega
    rw [hone]
    simp only [List.length_cons, List.length_nil, pow_one]
    ring

theorem natOfDigits_charsOfNat (n : Nat) : natOfDigits (charsOfNat n) = n := by
  unfold charsOfNat
  rw [natOfDigits_rev_map _ (fun x hx => Nat.digits_lt_base (by norm_num) hx)]
  exact Nat.ofDigits_digits 10 n

theorem charsOfNat_all_digit (n : Nat) : (charsOfNat n).all Char.isDigit = true := by
  rw [List.all_eq_true]
  intro x hx
  unfold charsOfNat at hx
  rw [List.mem_reverse, List.mem_map] at hx
  obtain ⟨d, hd, rfl⟩ := hx
  exact isDigit_toDigitChar (Nat.digits_lt_base (by norm_num) hd)

theorem charsOfNat_length_le {n : Nat} (h : n < 10 ^ 9) : (charsOfNat n).length ≤ 9 := by
  unfold charsOfNat
  rw [List.length_reverse, List.length_map]
  rcases Nat.eq_zero_or_pos n with rfl | hn
  · simp
  · rw [Nat.digits_len 10 n (by norm_num) (Nat.pos_iff_ne_zero.mp hn)]
    have := (Nat.lt_pow_iff_log_lt (b := 10) (by norm_num) (Nat.pos_iff_ne_zero.mp hn)).mp h
    omega

/-! ### zfill lemmas -/

theorem zfill_length (n : Nat) (s : List Char) : (zfill n s).length = max n s.length := by
  simp [zfill]
  omega

theorem zfill_all_digit {n : Nat} {s : List Char} (h : s.all Char.isDigit = true) :
    (zfill n s).all Char.isDigit = true := by
  rw [List.all_eq_true] at h ⊢
  intro x hx
  rw [zfill, List.mem_append] at hx
  rcases hx with hx | hx
  · rw [List.eq_of_mem_replicate hx]; rfl
  · exact h x hx

theorem zfill_all_py {n : Nat} {s : List Char} (h : s.all pyIsDigit = true) :
    (zfill n s).all pyIsDigit = true := by
  rw [List.all_eq_true] at h ⊢
  intro x hx
  rw [zfill, List.mem_append] at hx
  rcases hx with hx | hx
  · rw [List.eq_of_mem_replicate hx]
    decide
  · exact h x hx

theorem natOfDigits_replicate_zero (k : Nat) :
    natOfDigits (List.replicate k '0') = 0 := by
  induction k with
  | zero => rfl
  | succ m ih =>
    rw [List.replicate_succ, natOfDigits, natOfDigitsAcc_cons]
    have h0 : 10 * 0 + digitVal '0' = 0 := rfl
    rw [h0]
    exact ih

theorem natOfDigits_zfill (n : Nat) (s : List Char) :
    natOfDigits (zfill n s) = natOfDigits s := by
  rw [zfill, natOfDigits_append, natOfDigits_replicate_zero]
  ring

/-! ### Properties of the pad-or-truncate step and the price decoder -/

theorem filter_all_digit (s : List Char) :
    (s.filter Char.isDigit).all Char.isDigit = true := by
  rw [List.all_eq_true]
  intro x hx
  exact (List.mem_filter.mp hx).2

theorem pad9_length {s : List Char} (h : s.filter Char.isDigit ≠ []) :
    (pad9 s).length = 9 := by
  have hpos : 0 < (s.filter Char.isDigit).length := List.length_pos.mpr h
  unfold pad9
  by_cases hlt : (s.filter Char.isDigit).length < 9
  · simp only [hlt, if_true]
    rw [zfill_length]
    omega
  · simp only [hlt, if_false]
    rw [lastN, List.length_drop]
    omega

theorem pad9_all_digit (s : List Char) : (pad9 s).all Char.isDigit = true := by
  unfold pad9
  by_cases hlt : (s.filter Char.isDigit).length < 9
  · simp only [hlt, if_true]
    exact zfill_all_digit (filter_all_digit s)
  · simp only [hlt, if_false]
    rw [List.all_eq_true]
    intro x hx
    have := List.mem_of_mem_drop hx
    exact (List.mem_filter.mp this).2

theorem sublist_all_digit {s t : List Char} (hsub : s.Sublist t)
    (h : t.all Char.isDigit = true) : s.all Char.isDigit = true := by
  rw [List.all_eq_true] at h ⊢
  intro x hx
  exact h x (hsub.subset hx)

/-- On any input whose digit content is non-empty, the decoder succeeds
and returns exactly the 5+4 split of the padded/truncated digit string. -/
theorem parse_eq_some {s : List Char} (h : s.filter Char.isDigit ≠ []) :
    parse_9digit_price s =
      some ((natOfDigits ((pad9 s).take 5) : ℚ) + (natOfDigits ((pad9 s).drop 5) : ℚ) / 10000) := by
  have hs : s ≠ [] := by
    intro h0
    subst h0
    exact h rfl
  have h9 : (pad9 s).length = 9 := pad9_length h
  have hall : (pad9 s).all Char.isDigit = true := pad9_all_digit s
  have htake : (pad9 s).take ((pad9 s).length - 4) = (pad9 s).take 5 := by rw [h9]
  have hdrop : (pad9 s).drop ((pad9 s).length - 4) = (pad9 s).drop 5 := by rw [h9]
  have htake_ne : (pad9 s).take 5 ≠ [] := by
    have : ((pad9 s).take 5).length = 5 := by
      rw [List.length_take, h9]
      omega
    intro h0
    rw [h0] at this
    simp at this
  have hdrop_ne : (pad9 s).drop 5 ≠ [] := by
    have : ((pad9 s).drop 5).length = 4 := by
      rw [List.length_drop, h9]
    intro h0
    rw [h0] at this
    simp at this
  have htake_all : ((pad9 s).take 5).all Char.isDigit = true :=
    sublist_all_digit (List.take_sublist _ _) hall
  have hdrop_all : ((pad9 s).drop 5).all Char.isDigit = true :=
    sublist_all_digit (List.drop_sublist _ _) hall
  unfold parse_9digit_price
  rw [if_neg hs, if_neg h]
  simp only [htake, hdrop]
  rw [pyInt, if_pos ⟨htake_ne, htake_all⟩, pyInt, if_pos ⟨hdrop_ne, hdrop_all⟩]

/-- The decoder returns the distinguished absence exactly when the input
has no digits at all. -/
theorem parse_none_iff (s : List Char) :
    parse_9digit_price s = none ↔ s.filter Char.isDigit = [] := by
  constructor
  · intro h
    by_contra hne
    rw [parse_eq_some hne] at h
    exact Option.noConfusion h
  · intro h
    unfold parse_9digit_price
    by_cases hs : s = []
    · rw [if_pos hs]
    · rw [if_neg hs, if_pos h]

theorem take5_bound {s : List Char} (h : s.filter Char.isDigit ≠ []) :
    natOfDigits ((pad9 s).take 5) < 10 ^ 5 := by
  have := natOfDigits_lt ((pad9 s).take 5)
    (sublist_all_digit (List.take_sublist _ _) (pad9_all_digit s))
  have hlen : ((pad9 s).take 5).length = 5 := by
    rw [List.length_take, pad9_length h]
    omega
  rw [hlen] at this
  exact this

theorem drop5_bound {s : List Char} (h : s.filter Char.isDigit ≠ []) :
    natOfDigits ((pad9 s).drop 5) < 10 ^ 4 := by
  have := natOfDigits_lt ((pad9 s).drop 5)
    (sublist_all_digit (List.drop_sublist _ _) (pad9_all_digit s))
  have hlen : ((pad9 s).drop 5).length = 4 := by
    rw [List.length_drop, pad9_length h]
  rw [hlen] at this
  exact this

/-! ### Properties of the date resolver -/

theorem searchDigitRun8_some : ∀ {l d : List Char}, searchDigitRun8 l = some d →
    d.length = 8 ∧ d.all pyIsDigit = true
  | [], _, h => Option.noConfusion h
  | c :: t, d, h => by
    unfold searchDigitRun8 at h
    by_cases hg : 8 ≤ (c :: t).length ∧ ((c :: t).take 8).all pyIsDigit = true
    · rw [if_pos hg] at h
      obtain rfl : (c :: t).take 8 = d := Option.some.inj h
      refine ⟨?_, hg.2⟩
      rw [List.length_take]
      omega
    · rw [if_neg hg] at h
      exact searchDigitRun8_some h

theorem firstMatch_some : ∀ {hl : List (List Char)} {d : List Char},
    firstMatch hl = some d → d.length = 8 ∧ d.all pyIsDigit = true
  | [], _, h => Option.noConfusion h
  | l :: ls, d, h => by
    unfold firstMatch at h
    cases hm : searchDigitRun8 l with
    | some e =>
      rw [hm] at h
      obtain rfl : e = d := Option.some.inj h
      exact searchDigitRun8_some hm
    | none =>
      rw [hm] at h
      exact firstMatch_some h

theorem findParenTag_some : ∀ {s run : List Char}, findParenTag s = some run →
    run.all pyIsDigit = true ∧ 3 ≤ run.length ∧ run.length ≤ 8
  | [], _, h => Option.noConfusion h
  | c :: t, run, h => by
    unfold findParenTag at h
    by_cases hp : c = '('
    · rw [if_pos hp] at h
      by_cases hg : 3 ≤ (t.takeWhile pyIsDigit).length ∧
          (t.takeWhile pyIsDigit).length ≤ 8 ∧
          (t.drop (t.takeWhile pyIsDigit).length).head? = some ')'
      · rw [if_pos hg] at h
        obtain rfl : t.takeWhile pyIsDigit = run := Option.some.inj h
        refine ⟨?_, hg.1, hg.2.1⟩
        rw [List.all_eq_true]
        intro x hx
        exact List.mem_takeWhile_imp hx
      · rw [if_neg hg] at h
        exact findParenTag_some h
    · rw [if_neg hp] at h
      exact findParenTag_some h

/-- A present year hint accepted by the 4-digit match and free of
newlines is exactly 4 decimal digits. -/
theorem yearOk_no_newline {yh : Option (List Char)} (hok : yearOk yh = true)
    (hnl : ∀ y, yh = some y → '\n' ∉ y) :
    ∃ y, yh = some y ∧ y.length = 4 ∧ y.all pyIsDigit = true := by
  cases yh with
  | none => exact absurd hok (by simp [yearOk])
  | some y =>
    refine ⟨y, rfl, ?_⟩
    have hy := hnl y rfl
    unfold yearOk pyFullMatch4Digits at hok
    simp only [Bool.or_eq_true, Bool.and_eq_true, decide_eq_true_eq] at hok
    rcases hok with h4 | h5
    · exact ⟨h4.1, h4.2⟩
    · exfalso
      apply hy
      have : '\n' ∈ y.drop 4 := by
        rw [h5.2]
        exact List.mem_singleton.mpr rfl
      exact List.mem_of_mem_drop this

theorem defaultDate_ok {yh : Option (List Char)}
    (hnl : ∀ y, yh = some y → '\n' ∉ y) :
    (defaultDate yh).length = 8 ∧ (defaultDate yh).all pyIsDigit = true := by
  unfold defaultDate
  by_cases hok : yearOk yh = true
  · rw [if_pos hok]
    obtain ⟨y, rfl, hlen, hdig⟩ := yearOk_no_newline hok hnl
    constructor
    · simp [hlen]
    · rw [List.all_append]
      simp only [Option.getD_some, Bool.and_eq_true]
      exact ⟨hdig, by decide⟩
  · rw [if_neg hok]
    decide

/-! ### Per-line accounting -/

/-- Every line that is non-empty after stripping line endings produces an
accepted or a rejected record, never a skip. -/
theorem processLine_ne_skipped (decode : List Nat → List Char)
    (fname date_tag : List Char) (lineno : Nat) (raw : List Nat)
    (hne : rstripCRLF raw ≠ []) :
    processLine decode fname date_tag lineno raw ≠ .skipped := by
  unfold processLine
  rw [if_neg (fun h0 => hne (List.length_eq_zero.mp h0))]
  by_cases hshort : (rstripCRLF raw).length < BYTE_POS_change_flag.2
  · rw [if_pos hshort]
    simp
  · rw [if_neg hshort]
    simp only
    by_cases hsid :
        slice_bytes decode (rstripCRLF raw) BYTE_POS_stock_id.1 BYTE_POS_stock_id.2 = []
    · rw [if_pos hsid]
      simp
    · rw [if_neg hsid]
      cases hv : parse_9digit_price (slice_bytes decode (rstripCRLF raw)
          BYTE_POS_close_price_raw.1 BYTE_POS_close_price_raw.2) with
      | none => simp
      | some v =>
        by_cases hs : sane_price (some v) = true
        · simp [hs]
        · simp [hs]

/-- A line is skipped exactly when nothing remains of it after stripping
line endings. -/
theorem processLine_skipped_iff (decode : List Nat → List Char)
    (fname date_tag : List Char) (lineno : Nat) (raw : List Nat) :
    processLine decode fname date_tag lineno raw = .skipped ↔ rstripCRLF raw = [] := by
  constructor
  · intro h
    by_contra hne
    exact processLine_ne_skipped decode fname date_tag lineno raw hne h
  · intro h
    unfold processLine
    rw [if_pos (by rw [h]; rfl)]

theorem processLines_counts (decode : List Nat → List Char) (fname date_tag : List Char) :
    ∀ (ls : List (List Nat)) (n : Nat),
      (processLines decode fname date_tag n ls).1.length
        + (processLines decode fname date_tag n ls).2.length
        = ls.countP (fun raw => !(rstripCRLF raw).isEmpty)
  | [], _ => rfl
  | raw :: rest, n => by
    have ih := processLines_counts decode fname date_tag rest (n + 1)
    unfold processLines
    rw [List.countP_cons]
    cases hres : processLine decode fname date_tag n raw with
    | skipped =>
      have hempty : rstripCRLF raw = [] :=
        (processLine_skipped_iff decode fname date_tag n raw).mp hres
      dsimp only
      rw [hempty]
      simpa using ih
    | accepted r =>
      have hne : rstripCRLF raw ≠ [] := by
        intro h
        have := (processLine_skipped_iff decode fname date_tag n raw).mpr h
        rw [hres] at this
        exact LineResult.noConfusion this
      have hf : (rstripCRLF raw).isEmpty = false := by
        cases hcase : rstripCRLF raw with
        | nil => exact absurd hcase hne
        | cons x xs => rfl
      dsimp only
      rw [hf]
      simp only [Bool.not_false, if_true, List.length_cons]
      omega
    | rejected d =>
      have hne : rstripCRLF raw ≠ [] := by
        intro h
        have := (processLine_skipped_iff decode fname date_tag n raw).mpr h
        rw [hres] at this
        exact LineResult.noConfusion this
      have hf : (rstripCRLF raw).isEmpty = false := by
        cases hcase : rstripCRLF raw with
        | nil => exact absurd hcase hne
        | cons x xs => rfl
      dsimp only
      rw [hf]
      simp only [Bool.not_false, if_true, List.length_cons]
      omega

theorem sane_price_some (v : ℚ) :
    sane_price (some v) = (decide (MIN_PRICE ≤ v) && decide (v ≤ MAX_PRICE)) := rfl

/-! ### The claims -/

/-- C1: for every file processed by `process_file`, the number of accepted
records plus the number of diagnostic records appended for that file
equals the number of lines that are non-empty after stripping line
endings among the lines remaining once the first (header) line is
unconditionally dropped: every such data line yields exactly one outcome,
and no line yields both or neither.  The statement quantifies over every
decoder, every file name and date tag, and every list of raw lines. -/
theorem claim_C1 (decode : List Nat → List Char) (fname date_tag : List Char)
    (lines : List (List Nat)) :
    (process_file decode fname date_tag lines).1.length
      + (process_file decode fname date_tag lines).2.length
      = ((lines.drop 1).countP fun raw => !(rstripCRLF raw).isEmpty) :=
  processLines_counts decode fname date_tag (lines.drop 1) 2

/-- C2: every non-empty data line whose length after stripping trailing
line endings is strictly below 59 (the maximum configured field end) is
rejected with reason `line_too_short`, with an empty `close_raw` field;
since the conclusion holds for every decoder, no field slicing or
decoding influences the outcome (the diagnostic row decodes only a
100-byte preview of the line itself). -/
theorem claim_C2 (decode : List Nat → List Char) (fname date_tag : List Char)
    (lineno : Nat) (raw : List Nat)
    (hne : rstripCRLF raw ≠ []) (hshort : (rstripCRLF raw).length < 59) :
    processLine decode fname date_tag lineno raw
      = .rejected { file := fname, line_no := lineno, reason := .line_too_short,
                    line_preview := decode ((rstripCRLF raw).take 100), close_raw := [] } := by
  dsimp only [processLine, BYTE_POS_change_flag]
  rw [if_neg (fun h0 => hne (List.length_eq_zero.mp h0)), if_pos hshort]

/-- C2 witness: the concrete 4-byte line is rejected as too short. -/
theorem claim_C2_witness :
    processLine asciiDecode wfname wdate 2 wlineShort
      = .rejected { file := wfname, line_no := 2, reason := .line_too_short,
                    line_preview := asciiDecode ((rstripCRLF wlineShort).take 100),
                    close_raw := [] } :=
  claim_C2 asciiDecode wfname wdate 2 wlineShort (by decide) (by decide)

/-- C3: for every line that passes the prior checks (non-empty, long
enough, non-empty identifier, closing price parsed to `v`): if `v` lies
within `[MIN_PRICE, MAX_PRICE]` inclusive the record is accepted with
closing price `v`; if it lies strictly below `MIN_PRICE` or strictly
above `MAX_PRICE` it is rejected with `close_out_of_bounds` carrying the
offending value. -/
theorem claim_C3 (decode : List Nat → List Char) (fname date_tag : List Char)
    (lineno : Nat) (raw : List Nat) (v : ℚ)
    (hne : rstripCRLF raw ≠ [])
    (hlen : ¬ (rstripCRLF raw).length < 59)
    (hsid : slice_bytes decode (rstripCRLF raw) 0 6 ≠ [])
    (hv : parse_9digit_price (slice_bytes decode (rstripCRLF raw) 49 58) = some v) :
    (MIN_PRICE ≤ v ∧ v ≤ MAX_PRICE →
      processLine decode fname date_tag lineno raw
        = .accepted { date := date_tag,
                      stock_id := slice_bytes decode (rstripCRLF raw) 0 6,
                      closing_price := v,
                      change_flag := pyStrip (decode (pySliceBytes (rstripCRLF raw) 58 59)),
                      stock_name := slice_bytes decode (rstripCRLF raw) 6 22,
                      source_file := fname, line_no := lineno })
    ∧ (v < MIN_PRICE ∨ MAX_PRICE < v →
      processLine decode fname date_tag lineno raw
        = .rejected { file := fname, line_no := lineno,
                      reason := .close_out_of_bounds v,
                      line_preview := decode ((rstripCRLF raw).take 100),
                      close_raw := slice_bytes decode (rstripCRLF raw) 49 58 }) := by
  constructor
  · intro hin
    have hsane : sane_price (some v) = true := by
      rw [sane_price_some, decide_eq_true hin.1, decide_eq_true hin.2]
      rfl
    dsimp only [processLine, BYTE_POS_stock_id, BYTE_POS_stock_name,
      BYTE_POS_close_price_raw, BYTE_POS_change_flag]
    rw [if_neg (fun h0 => hne (List.length_eq_zero.mp h0)), if_neg hlen, if_neg hsid, hv]
    dsimp only
    rw [if_pos hsane]
  · intro hout
    have hsane : sane_price (some v) = false := by
      rw [sane_price_some]
      rcases hout with h | h
      · rw [decide_eq_false (not_le.mpr h), Bool.false_and]
      · rw [decide_eq_false (not_le.mpr h), Bool.and_false]
    dsimp only [processLine, BYTE_POS_stock_id, BYTE_POS_stock_name,
      BYTE_POS_close_price_raw, BYTE_POS_change_flag]
    rw [if_neg (fun h0 => hne (List.length_eq_zero.mp h0)), if_neg hlen, if_neg hsid, hv]
    dsimp only
    rw [if_neg (by rw [hsane]; exact Bool.false_ne_true)]

/-- Helper for the C3 witness: the closing-price field of the concrete
accepted line decodes to 39.8000. -/
theorem wlineAccept_close :
    parse_9digit_price (slice_bytes asciiDecode (rstripCRLF wlineAccept) 49 58)
      = some ((39 : ℚ) + (8000 : ℚ) / 10000) := by
  have h : slice_bytes asciiDecode (rstripCRLF wlineAccept) 49 58 = "000398000".toList := by
    decide
  have hp : pad9 ("000398000".toList) = "000398000".toList := by decide
  have h1 : natOfDigits (("000398000".toList).take 5) = 39 := by decide
  have h2 : natOfDigits (("000398000".toList).drop 5) = 8000 := by decide
  rw [h, parse_eq_some (by decide), hp, h1, h2]
  norm_num

/-- Helper for the C3 witness: 39.8000 lies within the configured price
bounds. -/
theorem wlineAccept_bounds :
    MIN_PRICE ≤ (39 : ℚ) + (8000 : ℚ) / 10000 ∧ (39 : ℚ) + (8000 : ℚ) / 10000 ≤ MAX_PRICE := by
  norm_num [MIN_PRICE, MAX_PRICE]

/-- C3 witness: the concrete well-formed line is accepted with closing
price 39.8000. -/
theorem claim_C3_witness :
    processLine asciiDecode wfname wdate 2 wlineAccept
      = .accepted { date := wdate,
                    stock_id := slice_bytes asciiDecode (rstripCRLF wlineAccept) 0 6,
                    closing_price := (39 : ℚ) + (8000 : ℚ) / 10000,
                    change_flag := pyStrip (asciiDecode (pySliceBytes (rstripCRLF wlineAccept) 58 59)),
                    stock_name := slice_bytes asciiDecode (rstripCRLF wlineAccept) 6 22,
                    source_file := wfname, line_no := 2 } :=
  (claim_C3 asciiDecode wfname wdate 2 wlineAccept ((39 : ℚ) + (8000 : ℚ) / 10000)
    (by decide) (by decide) (by decide) wlineAccept_close).1 wlineAccept_bounds

/-- C4: for every string of exactly 9 decimal digits, decoding it with
`parse_9digit_price` and re-encoding the result as
`whole*10000 + fraction` zero-padded to 9 digits reproduces the original
string. -/
theorem claim_C4 (s : List Char) (h9 : s.length = 9) (hd : s.all Char.isDigit = true) :
    ∃ v, parse_9digit_price s = some v ∧ reencode9 v = s := by
  have hd' : ∀ x ∈ s, Char.isDigit x = true := List.all_eq_true.mp hd
  have hfil : s.filter Char.isDigit = s := List.filter_eq_self.mpr hd'
  have hne : s.filter Char.isDigit ≠ [] := by
    rw [hfil]
    intro h0
    rw [h0] at h9
    simp at h9
  have hpad : pad9 s = s := by
    simp only [pad9, hfil, h9, lastN]
    norm_num
  refine ⟨_, parse_eq_some hne, ?_⟩
  rw [hpad]
  have hdroplen : (s.drop 5).length = 4 := by
    rw [List.length_drop, h9]
  have hsplit : natOfDigits s = natOfDigits (s.take 5) * 10 ^ 4 + natOfDigits (s.drop 5) := by
    conv_lhs => rw [← List.take_append_drop 5 s]
    rw [natOfDigits_append, hdroplen]
  have hq : ((natOfDigits (s.take 5) : ℚ) + (natOfDigits (s.drop 5) : ℚ) / 10000) * 10000
      = ((natOfDigits s : Nat) : ℚ) := by
    rw [hsplit]
    push_cast
    ring
  unfold reencode9
  rw [hq, Rat.num_natCast, Int.toNat_natCast]
  have hlt : natOfDigits s < 10 ^ 9 := by
    have := natOfDigits_lt s hd
    rw [h9] at this
    exact this
  apply natOfDigits_inj
  · rw [zfill_length, h9]
    have := charsOfNat_length_le hlt
    omega
  · exact zfill_all_digit (charsOfNat_all_digit _)
  · exact hd
  · rw [natOfDigits_zfill, natOfDigits_charsOfNat]

/-- C4 witness: decoding and re-encoding the concrete digit string
`000398000` reproduces it. -/
theorem claim_C4_witness :
    ∃ v, parse_9digit_price ("000398000".toList) = some v
      ∧ reencode9 v = "000398000".toList :=
  claim_C4 ("000398000".toList) (by decide) (by decide)

/-- C5: on any two inputs each retaining at least 9 digits after the
non-digit strip, the decoded value depends only on the rightmost 9 of
those digits: equal last-9-digit sequences give equal results. -/
theorem claim_C5 (s t : List Char)
    (hs : 9 ≤ (s.filter Char.isDigit).length) (ht : 9 ≤ (t.filter Char.isDigit).length)
    (h : lastN 9 (s.filter Char.isDigit) = lastN 9 (t.filter Char.isDigit)) :
    parse_9digit_price s = parse_9digit_price t := by
  have hs0 : s.filter Char.isDigit ≠ [] := by
    intro h0
    rw [h0] at hs
    simp at hs
  have ht0 : t.filter Char.isDigit ≠ [] := by
    intro h0
    rw [h0] at ht
    simp at ht
  have hp : pad9 s = pad9 t := by
    simp only [pad9]
    rw [if_neg (by omega), if_neg (by omega)]
    exact h
  rw [parse_eq_some hs0, parse_eq_some ht0, hp]

/-- C5 witness: a 10-digit input (with a leading letter) and a 13-digit
input agreeing on their last 9 digits decode identically. -/
theorem claim_C5_witness :
    parse_9digit_price ("a1123456789".toList) = parse_9digit_price ("9999123456789".toList) :=
  claim_C5 ("a1123456789".toList) ("9999123456789".toList)
    (by decide) (by decide) (by decide)

/-- C6: an input with no decimal digit at all (including the empty and
all-space strings) decodes to the distinguished absence `none`, never the
number zero, and the validator propagates this absence for a line that
passed the earlier checks as rejection reason `close_unparseable`. -/
theorem claim_C6 :
    (∀ s : List Char, s.filter Char.isDigit = [] → parse_9digit_price s = none)
    ∧ ∀ (decode : List Nat → List Char) (fname date_tag : List Char) (lineno : Nat)
        (raw : List Nat),
        rstripCRLF raw ≠ [] → ¬ (rstripCRLF raw).length < 59 →
        slice_bytes decode (rstripCRLF raw) 0 6 ≠ [] →
        (slice_bytes decode (rstripCRLF raw) 49 58).filter Char.isDigit = [] →
        processLine decode fname date_tag lineno raw
          = .rejected { file := fname, line_no := lineno,
                        reason := .close_unparseable,
                        line_preview := decode ((rstripCRLF raw).take 100),
                        close_raw := slice_bytes decode (rstripCRLF raw) 49 58 } := by
  constructor
  · intro s h
    exact (parse_none_iff s).mpr h
  · intro decode fname date_tag lineno raw hne hlen hsid hnd
    have hparse : parse_9digit_price (slice_bytes decode (rstripCRLF raw) 49 58) = none :=
      (parse_none_iff _).mpr hnd
    dsimp only [processLine, BYTE_POS_stock_id, BYTE_POS_stock_name,
      BYTE_POS_close_price_raw, BYTE_POS_change_flag]
    rw [if_neg (fun h0 => hne (List.length_eq_zero.mp h0)), if_neg hlen, if_neg hsid, hparse]

/-- C6 witness: the all-space string decodes to `none`, and the concrete
line whose close field is all spaces is rejected as `close_unparseable`. -/
theorem claim_C6_witness :
    parse_9digit_price ("   ".toList) = none
    ∧ processLine asciiDecode wfname wdate 2 wlineNoClose
        = .rejected { file := wfname, line_no := 2,
                      reason := .close_unparseable,
                      line_preview := asciiDecode ((rstripCRLF wlineNoClose).take 100),
                      close_raw := slice_bytes asciiDecode (rstripCRLF wlineNoClose) 49 58 } :=
  ⟨claim_C6.1 ("   ".toList) (by decide),
    claim_C6.2 asciiDecode wfname wdate 2 wlineNoClose
      (by decide) (by decide) (by decide) (by decide)⟩

/-- C7 (amended): for every file and every optional year hint that does
not carry a trailing newline, `derive_date_for_file` returns (it is total
by construction, no step raises) a string of exactly 8 decimal digits —
digits in the sense of the `\d` class `pyIsDigit`, so a fullwidth-digit
header date yields fullwidth digits — obtained by trying in order: an
8-digit run in the first 3 decoded header lines; a parenthesized 3-8
digit filename tag (a 4-digit tag concatenated after a 4-digit year
hint, or an 8-digit tag used directly); the year hint followed by
`0101`; and finally the fixed sentinel `19700101`.  Python re.match
`^\d{4}$` also accepts a 4-digit hint followed by one trailing newline,
in which case the newline leaks into a 9-character result (see the
counterexample), so the newline-free proviso is necessary. -/
theorem claim_C7 (headerLines : List (List Char)) (fname : List Char)
    (yh : Option (List Char)) (hnl : ∀ y, yh = some y → '\n' ∉ y) :
    (derive_date_for_file headerLines fname yh).length = 8
      ∧ (derive_date_for_file headerLines fname yh).all pyIsDigit = true := by
  unfold derive_date_for_file
  cases hm : firstMatch (headerLines.take 3) with
  | some d => exact firstMatch_some hm
  | none =>
    cases ht : findParenTag fname with
    | some run =>
      obtain ⟨hrdig, hr3, hr8⟩ := findParenTag_some ht
      dsimp only
      by_cases h4 : (zfill 4 run).length = 4 ∧ yearOk yh = true
      · rw [if_pos h4]
        obtain ⟨y, rfl, hylen, hydig⟩ := yearOk_no_newline h4.2 hnl
        simp only [Option.getD_some]
        constructor
        · rw [List.length_append, hylen, h4.1]
        · rw [List.all_append, hydig, zfill_all_py hrdig]
          rfl
      · rw [if_neg h4]
        by_cases h8 : (zfill 4 run).length = 8
        · rw [if_pos h8]
          exact ⟨h8, zfill_all_py hrdig⟩
        · rw [if_neg h8]
          exact defaultDate_ok hnl
    | none => exact defaultDate_ok hnl

/-- C7 counterexample: with no usable header line and no filename tag,
the year hint `"2020\n"` is accepted by the `^\d{4}$` match (Python `$`
matches before a trailing newline), and the resulting date string
`"2020\n0101"` has 9 characters and contains a non-digit — refuting the
claim that the result is always exactly 8 decimal digits for every
optional year hint. -/
theorem claim_C7_counterexample :
    ¬ ((derive_date_for_file [] [] (some ("2020\n".toList))).length = 8
      ∧ (derive_date_for_file [] [] (some ("2020\n".toList))).all pyIsDigit = true) := by
  decide

/-- C7 witness: with no header lines, the filename tag `(0420)` combined
with the newline-free year hint `2020` yields an 8-digit date. -/
theorem claim_C7_witness :
    (derive_date_for_file [] wfname (some ("2020".toList))).length = 8
      ∧ (derive_date_for_file [] wfname (some ("2020".toList))).all pyIsDigit = true :=
  claim_C7 [] wfname (some ("2020".toList))
    (by
      intro y h
      injection h with h2
      subst h2
      decide)

/-- C8: for every byte sequence and every pair of non-negative offsets,
`slice_bytes` returns a string (it is total for every total replace-mode
decoder, so it never raises); a range extending past the end of the
available bytes behaves exactly like the range truncated to the available
bytes, and a range lying entirely past the end yields the empty string
(given that the decoder maps no bytes to no text, as replace-mode
decoding does). -/
theorem claim_C8 (decode : List Nat → List Char) (b : List Nat) (start stop : Nat) :
    slice_bytes decode b start stop = slice_bytes decode b start (min stop b.length)
      ∧ (decode [] = [] → b.length ≤ start → slice_bytes decode b start stop = []) := by
  constructor
  · unfold slice_bytes pySliceBytes
    rcases Nat.le_total stop b.length with h | h
    · rw [min_eq_left h]
    · rw [min_eq_right h, List.take_of_length_le h, List.take_length]
  · intro hd hs
    unfold slice_bytes pySliceBytes
    have h1 : (b.take stop).length ≤ start := by
      rw [List.length_take]
      omega
    rw [List.drop_eq_nil_of_le h1, hd]
    rfl

/-- C8 witness: on a concrete 2-byte sequence, a range reaching past the
end equals its truncation, and a range entirely past the end yields the
empty string (both hypotheses of the second part hold at this
instance). -/
theorem claim_C8_witness :
    slice_bytes asciiDecode [72, 73] 5 9 = slice_bytes asciiDecode [72, 73] 5 (min 9 2)
      ∧ slice_bytes asciiDecode [72, 73] 5 9 = [] := by
  have h := claim_C8 asciiDecode [72, 73] 5 9
  exact ⟨h.1, h.2 rfl (by decide)⟩

/-- C9: `parse_9digit_price` returns the distinguished absence exactly
when its input contains no decimal digit; in particular, whenever at
least one digit is present the zero-padded/truncated 9-digit split
succeeds and a value is returned, so the final exception branch of the
source (failure of the 9-digit split) is unreachable. -/
theorem claim_C9 (s : List Char) :
    parse_9digit_price s = none ↔ s.filter Char.isDigit = [] :=
  parse_none_iff s

/-- C10: every value returned by `parse_9digit_price` lies in
`[0, 99999.9999]`; consequently it never exceeds `MAX_PRICE = 10^6`, and
`sane_price` rejects a parsed value exactly when it is strictly below
`MIN_PRICE` — the upper bound can never be the cause of a
`close_out_of_bounds` rejection. -/
theorem claim_C10 (s : List Char) (v : ℚ) (h : parse_9digit_price s = some v) :
    0 ≤ v ∧ v ≤ 99999 + (9999 : ℚ) / 10000 ∧ v ≤ MAX_PRICE
      ∧ (sane_price (some v) = false ↔ v < MIN_PRICE) := by
  have hne : s.filter Char.isDigit ≠ [] := by
    intro h0
    rw [(parse_none_iff s).mpr h0] at h
    exact Option.noConfusion h
  rw [parse_eq_some hne] at h
  have hv : v = (natOfDigits ((pad9 s).take 5) : ℚ) + (natOfDigits ((pad9 s).drop 5) : ℚ) / 10000 :=
    (Option.some.inj h).symm
  have hwn : natOfDigits ((pad9 s).take 5) ≤ 99999 := by
    have := take5_bound hne
    omega
  have hfn : natOfDigits ((pad9 s).drop 5) ≤ 9999 := by
    have := drop5_bound hne
    omega
  have hwq : (natOfDigits ((pad9 s).take 5) : ℚ) ≤ 99999 := by exact_mod_cast hwn
  have hfq : (natOfDigits ((pad9 s).drop 5) : ℚ) ≤ 9999 := by exact_mod_cast hfn
  have h0 : 0 ≤ v := by
    rw [hv]
    positivity
  have hub : v ≤ 99999 + (9999 : ℚ) / 10000 := by
    rw [hv]
    gcongr
  have hmax : v ≤ MAX_PRICE := le_trans hub (by norm_num [MAX_PRICE])
  refine ⟨h0, hub, hmax, ?_, ?_⟩
  · intro hfalse
    by_contra hnot
    have htrue : sane_price (some v) = true := by
      rw [sane_price_some, decide_eq_true (not_lt.mp hnot), decide_eq_true hmax]
      rfl
    rw [htrue] at hfalse
    exact Bool.noConfusion hfalse
  · intro hlt
    rw [sane_price_some, decide_eq_false (not_le.mpr hlt), Bool.false_and]

/-- C10 witness: the concrete parsed value 39.8000 satisfies the bounds
and the rejection characterization. -/
theorem claim_C10_witness :
    0 ≤ (39 : ℚ) + (8000 : ℚ) / 10000
      ∧ (39 : ℚ) + (8000 : ℚ) / 10000 ≤ 99999 + (9999 : ℚ) / 10000
      ∧ (39 : ℚ) + (8000 : ℚ) / 10000 ≤ MAX_PRICE
      ∧ (sane_price (some ((39 : ℚ) + (8000 : ℚ) / 10000)) = false
          ↔ (39 : ℚ) + (8000 : ℚ) / 10000 < MIN_PRICE) := by
  have h : parse_9digit_price ("000398000".toList) = some ((39 : ℚ) + (8000 : ℚ) / 10000) := by
    have hp : pad9 ("000398000".toList) = "000398000".toList := by decide
    have h1 : natOfDigits (("000398000".toList).take 5) = 39 := by decide
    have h2 : natOfDigits (("000398000".toList).drop 5) = 8000 := by decide
    rw [parse_eq_some (by decide), hp, h1, h2]
    norm_num
  exact claim_C10 ("000398000".toList) ((39 : ℚ) + (8000 : ℚ) / 10000) h
